import Mathlib

/-!
# Verification of the LineairDB storage engine key/value codec and range planner

Shallow embedding of the codec and planner of the LineairDB MySQL storage
engine (`ha_lineairdb.cc`, `lineairdb_field.cc`, `lineairdb_transaction.cc`).

Conventions of the embedding:
* A C++ byte string (`std::string`, `uchar*` buffers) is a `List Nat`; an
  element is the byte's unsigned value.  Theorems add `< 256` bounds where
  byte-ness matters; the encoders only ever produce values `< 256`.
* Unsigned machine arithmetic is `Nat`; `x >> k` is `x / 2 ^ k`, `x << k` is
  `x <<< k` (`= x * 2 ^ k`), `x & 0xFF` is `x % 256`, and `|||`/`^^^` are the
  bitwise operators, exactly as in the source.
* `std::optional` is `Option`; the empty string used by the source as a
  "no key" sentinel is the empty list `[]`.
-/

set_option maxHeartbeats 1000000
set_option maxRecDepth 100000

/-- Byte-wise lexicographic strict order on byte strings, as used by
`std::string::operator<` and by the sorted key-value store to order keys:
compare element-wise at the first difference; a strict proper initial
segment is smaller. -/
def lexLt : List Nat → List Nat → Bool
  | [], [] => false
  | [], _ :: _ => true
  | _ :: _, [] => false
  | a :: as, b :: bs => if a < b then true else if b < a then false else lexLt as bs

theorem lexLt_irrefl (a : List Nat) : lexLt a a = false := by
  induction a with
  | nil => rfl
  | cons x xs ih => simp [lexLt, ih]

theorem lexLt_asymm : ∀ {a b : List Nat}, lexLt a b = true → lexLt b a = false
  | [], [], h => by simp [lexLt] at h
  | [], _ :: _, _ => rfl
  | _ :: _, [], h => by simp [lexLt] at h
  | x :: xs, y :: ys, h => by
    by_cases hxy : x < y
    · have : ¬ y < x := Nat.lt_asymm hxy
      simp [lexLt, this, hxy]
    · by_cases hyx : y < x
      · simp [lexLt, hxy, hyx] at h
      · simp only [lexLt, if_neg hxy, if_neg hyx] at h
        simp [lexLt, hxy, hyx, lexLt_asymm h]

theorem lexLt_trans : ∀ {a b c : List Nat},
    lexLt a b = true → lexLt b c = true → lexLt a c = true
  | [], [], _, h, _ => by simp [lexLt] at h
  | [], _ :: _, [], _, h => by simp [lexLt] at h
  | [], _ :: _, _ :: _, _, _ => rfl
  | _ :: _, [], _, h, _ => by simp [lexLt] at h
  | _ :: _, _ :: _, [], _, h => by simp [lexLt] at h
  | x :: xs, y :: ys, z :: zs, h₁, h₂ => by
    by_cases hxy : x < y
    · by_cases hyz : y < z
      · have hxz : x < z := Nat.lt_trans hxy hyz
        simp [lexLt, hxz]
      · by_cases hzy : z < y
        · simp [lexLt, hyz, hzy] at h₂
        · have hyzeq : y = z := Nat.le_antisymm (Nat.le_of_not_lt hzy) (Nat.le_of_not_lt hyz)
          subst hyzeq
          simp [lexLt, hxy]
    · by_cases hyx : y < x
      · simp [lexLt, hxy, hyx] at h₁
      · have hxyeq : x = y := Nat.le_antisymm (Nat.le_of_not_lt hyx) (Nat.le_of_not_lt hxy)
        subst hxyeq
        simp only [lexLt, if_neg hxy, if_neg hyx] at h₁
        by_cases hyz : x < z
        · simp [lexLt, hyz]
        · by_cases hzy : z < x
          · simp [lexLt, hyz, hzy] at h₂
          · simp only [lexLt, if_neg hyz, if_neg hzy] at h₂ ⊢
            exact lexLt_trans h₁ h₂

/-- Totality: if neither string is smaller they are equal. -/
theorem eq_of_not_lexLt : ∀ {a b : List Nat},
    lexLt a b = false → lexLt b a = false → a = b
  | [], [], _, _ => rfl
  | [], _ :: _, h, _ => by simp [lexLt] at h
  | _ :: _, [], _, h => by simp [lexLt] at h
  | x :: xs, y :: ys, h₁, h₂ => by
    by_cases hxy : x < y
    · simp [lexLt, hxy] at h₁
    · by_cases hyx : y < x
      · simp [lexLt, hyx] at h₂
      · have hxyeq : x = y := Nat.le_antisymm (Nat.le_of_not_lt hyx) (Nat.le_of_not_lt hxy)
        subst hxyeq
        simp only [lexLt, if_neg hxy] at h₁ h₂
        rw [eq_of_not_lexLt h₁ h₂]

/-- Appending the same front string preserves the comparison. -/
theorem lexLt_append_same : ∀ (p u v : List Nat), lexLt (p ++ u) (p ++ v) = lexLt u v
  | [], _, _ => rfl
  | x :: xs, u, v => by simp [lexLt, lexLt_append_same xs u v]

/-- A string never sorts below its own extension. -/
theorem lexLt_append_self_right (p x : List Nat) : lexLt (p ++ x) p = false := by
  induction p with
  | nil => cases x <;> rfl
  | cons a as ih => simp [lexLt, ih]

/-- A string sorts strictly below any proper extension of itself. -/
theorem lexLt_self_append (p : List Nat) (x : List Nat) (hx : x ≠ []) :
    lexLt p (p ++ x) = true := by
  induction p with
  | nil => cases x with
    | nil => exact absurd rfl hx
    | cons b bs => rfl
  | cons a as ih => simp [lexLt, ih]

/-! ## Bit-level bridges

The source accumulates bytes with `n |= byte << (8*i)` and flips sign bits
with `value ^= 0x80...`; these lemmas relate those bitwise operations to
plain arithmetic on disjoint bit ranges. -/

theorem lor_shift_eq_add {n b k : Nat} (hn : n < 2 ^ k) :
    n ||| (b <<< k) = n + b * 2 ^ k := by
  have h := Nat.mul_add_lt_is_or (i := k) hn b
  rw [Nat.shiftLeft_eq, Nat.lor_comm, Nat.mul_comm b (2 ^ k)]
  omega

theorem xor_two_pow_of_lt {a k : Nat} (h : a < 2 ^ k) : a ^^^ 2 ^ k = a + 2 ^ k := by
  apply Nat.eq_of_testBit_eq
  intro j
  have hsum : a + 2 ^ k = 2 ^ k * 1 + a := by omega
  rw [hsum, Nat.testBit_mul_pow_two_add 1 h j, Nat.testBit_xor, Nat.testBit_two_pow]
  by_cases hj : j < k
  · have : k ≠ j := by omega
    simp [hj, this]
  · have hk : ¬ (k = j) ∨ k = j := by omega
    have ha : a.testBit j = false := by
      apply Nat.testBit_lt_two_pow
      calc a < 2 ^ k := h
        _ ≤ 2 ^ j := Nat.pow_le_pow_right (by omega) (by omega)
    by_cases hkj : k = j
    · subst hkj
      simp [hj, ha]
    · have hjk : j - k ≠ 0 := by omega
      have hone : Nat.testBit 1 (j - k) = false := by
        have := Nat.testBit_two_pow (n := 0) (m := j - k)
        simpa [Ne.symm hjk] using this
      simp [hj, ha, hone, hkj]

theorem xor_two_pow_of_ge {a k : Nat} (h₁ : 2 ^ k ≤ a) (h₂ : a < 2 ^ (k + 1)) :
    a ^^^ 2 ^ k = a - 2 ^ k := by
  have hr : a - 2 ^ k < 2 ^ k := by
    have : 2 ^ (k + 1) = 2 ^ k + 2 ^ k := by rw [Nat.pow_succ]; omega
    omega
  have hx := xor_two_pow_of_lt hr
  have ha : a = (a - 2 ^ k) + 2 ^ k := by omega
  conv_lhs => rw [ha, ← hx]
  rw [Nat.xor_assoc, Nat.xor_self, Nat.xor_zero]

/-! ## FieldCodec: `LineairDBField` (`lineairdb_field.cc`)

A stored row value is a sequence of field records
`[byteSize:1][valueLength:byteSize][value:valueLength]` where
`byteSize = 0xFF` (`noValue`) marks an empty/NULL field.  The first record
carries the row's null-flag bytes, the rest the column values in
declaration order. -/

/-- The `noValue` sentinel (`static constexpr char noValue = 0xff`), as an
unsigned byte value. -/
def noValue : Nat := 0xFF

/-- The `maxValueLength` bound (`static constexpr size_t maxValueLength = UINT_MAX`). -/
def maxValueLength : Nat := 0xFFFFFFFF

/-- Modelled from the spec: `LineairDBField::calculate_minimum_byte_size_required`
is declared in `lineairdb_field.hh` but its definition is not part of the
sources; per the header comment (`valueLength: length of value, max 4 bytes`)
and its use in `convert_numeric_to_bytes`, it returns the least number of
bytes that can hold `num` (at least one). -/
def calculate_minimum_byte_size_required (num : Nat) : Nat :=
  if num < 256 then 1 else 1 + calculate_minimum_byte_size_required (num / 256)
  decreasing_by exact Nat.div_lt_self (by omega) (by omega)

/-- Little-endian byte emission loop of `convert_numeric_to_bytes`: byte `i`
is `(num >> (CHAR_BIT * i)) & 0xFF`; peeling byte 0 first, this is
`(num % 256)` followed by the bytes of `num / 256`. -/
def le_bytes : Nat → Nat → List Nat
  | 0, _ => []
  | k + 1, num => (num % 256) :: le_bytes k (num / 256)

/-- Function `LineairDBField::convert_numeric_to_bytes`: `num` in little-endian order
using the minimum number of bytes required. -/
def convert_numeric_to_bytes (num : Nat) : List Nat :=
  le_bytes (calculate_minimum_byte_size_required num) num

/-- Function `LineairDBField::convert_numeric_to_a_byte`: the first byte of the
little-endian encoding. -/
def convert_numeric_to_a_byte (num : Nat) : Nat :=
  (convert_numeric_to_bytes num).headD 0

/-- The value the 64-bit `|` of `convert_bytes_to_numeric` actually
receives from `static_cast<uchar>(bytes[i]) << CHAR_BIT * i`: the byte
(`% 256` models the `uchar` cast) is promoted to 32-bit `int`, the shift is
performed there — wrapping to the shifted value's low 32 bits, the usual
two's-complement outcome of the overflowing signed shift — and the signed
result is then converted to the unsigned 64-bit `size_t`, sign-extending
when it is negative (low-32-bits value at least `2^31`): the upper 32 bits
of the operand are filled with ones, i.e. `2^64 - 2^32` is added.  For a
shift of 24 this kicks in exactly when the byte is `0x80` or more. -/
def int_shift_to_size_t (b sh : Nat) : Nat :=
  if ((b % 256) <<< sh) % 2 ^ 32 < 2 ^ 31 then ((b % 256) <<< sh) % 2 ^ 32
  else 2 ^ 64 - 2 ^ 32 + ((b % 256) <<< sh) % 2 ^ 32

/-- Accumulation loop of `LineairDBField::convert_bytes_to_numeric`:
`n = n | static_cast<uchar>(bytes[i]) << CHAR_BIT * i` over increasing `i`,
with the shift computed in 32-bit `int` and sign-extended into the 64-bit
accumulator as in the source (see `int_shift_to_size_t`). -/
def cbn_loop : List Nat → Nat → Nat → Nat
  | [], _, n => n
  | b :: rest, i, n => cbn_loop rest (i + 1) (n ||| int_shift_to_size_t b (8 * i))

/-- Function `LineairDBField::convert_bytes_to_numeric`. -/
def convert_bytes_to_numeric (bytes : List Nat) : Nat :=
  cbn_loop bytes 0 0

/-- One encoded field record, as produced by
`set_lineairdb_field(src, length)` followed by `get_lineairdb_field()`
(`byteSize + valueLength + value`); `set_header(0)` stores the `noValue`
sentinel with empty `valueLength` and `value`. -/
def encode_field (v : List Nat) : List Nat :=
  if v.length = 0 then [noValue]
  else
    convert_numeric_to_a_byte (convert_numeric_to_bytes v.length).length ::
      (convert_numeric_to_bytes v.length ++ v)

/-- Function `ha_lineairdb::set_write_buffer`: the stored row blob is the null-flag
field record (`set_null_field`) followed by one field record per column in
declaration order; a NULL column is written through
`set_lineairdb_field("", 0)`, i.e. as the empty value `[]`. -/
def encode_row (nulls : List Nat) (cols : List (List Nat)) : List Nat :=
  encode_field nulls ++ (cols.map encode_field).flatten

/-- Function `LineairDBField::make_mysql_table_row`: walk the blob, reading at each
offset `byteSize`; on the `noValue` sentinel record the empty field,
otherwise read `byteSize` bytes of `valueLength` and then that many value
bytes.  The record at offset 0 is the null-flag field, the remaining ones
the column values; this function returns the decoded fields in blob order. -/
def make_mysql_table_row : List Nat → List (List Nat)
  | [] => []
  | byteSize :: rest =>
    if byteSize = noValue then [] :: make_mysql_table_row rest
    else
      ((rest.drop byteSize).take (convert_bytes_to_numeric (rest.take byteSize))) ::
        make_mysql_table_row
          ((rest.drop byteSize).drop (convert_bytes_to_numeric (rest.take byteSize)))
  termination_by data => data.length
  decreasing_by
    all_goals simp only [List.length_cons, List.length_drop]; omega

/-- The decoded row as the handler consumes it: `get_null_flags()` (the
first field) and `get_column_of_row` for each subsequent field. -/
def decode_row (data : List Nat) : List Nat × List (List Nat) :=
  match make_mysql_table_row data with
  | [] => ([], [])
  | nullFlag :: row => (nullFlag, row)

/-! ## Round-trip laws of the field codec -/

theorem min_byte_size_pos (n : Nat) : 1 ≤ calculate_minimum_byte_size_required n := by
  rw [calculate_minimum_byte_size_required]
  split <;> omega

theorem lt_pow_min_byte_size (n : Nat) :
    n < 256 ^ calculate_minimum_byte_size_required n := by
  induction n using Nat.strong_induction_on with
  | _ n ih =>
    rw [calculate_minimum_byte_size_required]
    by_cases h : n < 256
    · simp only [if_pos h, pow_one]
      exact h
    · simp only [if_neg h]
      have hd := ih (n / 256) (Nat.div_lt_self (by omega) (by omega))
      rw [Nat.pow_add, pow_one]
      omega

theorem min_byte_size_le (k : Nat) : ∀ n, n < 256 ^ (k + 1) →
    calculate_minimum_byte_size_required n ≤ k + 1 := by
  induction k with
  | zero =>
    intro n h
    have h2 : n < 256 := by simpa using h
    rw [calculate_minimum_byte_size_required]
    simp [h2]
  | succ k ih =>
    intro n h
    rw [calculate_minimum_byte_size_required]
    by_cases hn : n < 256
    · simp [hn]
    · simp only [if_neg hn]
      have hdiv : n / 256 < 256 ^ (k + 1) := by
        rw [pow_succ'] at h
        exact Nat.div_lt_of_lt_mul h
      have := ih _ hdiv
      omega

theorem le_bytes_length (k : Nat) : ∀ n, (le_bytes k n).length = k := by
  induction k with
  | zero => intro n; rfl
  | succ k ih => intro n; simp [le_bytes, ih]

/-- While every shifted byte stays below the `int` sign bit, the promoted
shift of `int_shift_to_size_t` is the plain shift. -/
theorem int_shift_to_size_t_of_lt {b sh : Nat} (hb : b < 256)
    (hlt : b * 2 ^ sh < 2 ^ 31) : int_shift_to_size_t b sh = b <<< sh := by
  have hbb : b % 256 = b := Nat.mod_eq_of_lt hb
  have hsh : b <<< sh = b * 2 ^ sh := Nat.shiftLeft_eq b sh
  have h32 : (b <<< sh) % 2 ^ 32 = b <<< sh := by
    apply Nat.mod_eq_of_lt
    rw [hsh]
    calc b * 2 ^ sh < 2 ^ 31 := hlt
      _ < 2 ^ 32 := by norm_num
  unfold int_shift_to_size_t
  rw [hbb, h32, if_pos (by rw [hsh]; exact hlt)]

theorem cbn_loop_le_bytes (k : Nat) : ∀ (n i acc : Nat), acc < 2 ^ (8 * i) →
    (n % 256 ^ k) * 2 ^ (8 * i) < 2 ^ 31 →
    cbn_loop (le_bytes k n) i acc = acc + (n % 256 ^ k) * 2 ^ (8 * i) := by
  induction k with
  | zero => intro n i acc _ _; simp [le_bytes, cbn_loop, Nat.mod_one]
  | succ k ih =>
    intro n i acc hacc htop
    have hPow : 2 ^ (8 * (i + 1)) = 2 ^ (8 * i) * 256 := by
      rw [Nat.mul_add, Nat.pow_add]
    have hmod : n % 256 ^ (k + 1) = n % 256 + 256 * (n / 256 % 256 ^ k) := by
      have h1 : (256:Nat) ^ (k + 1) = 256 * 256 ^ k := by rw [Nat.pow_succ]; ring
      rw [h1, Nat.mod_mul]
    have hble : (n % 256) * 2 ^ (8 * i) ≤ (n % 256 ^ (k + 1)) * 2 ^ (8 * i) := by
      apply Nat.mul_le_mul_right
      omega
    have hblt : (n % 256) * 2 ^ (8 * i) < 2 ^ 31 := Nat.lt_of_le_of_lt hble htop
    have hshift : int_shift_to_size_t (n % 256) (8 * i) = (n % 256) <<< (8 * i) :=
      int_shift_to_size_t_of_lt (by omega) hblt
    have hacc2 : acc + (n % 256) * 2 ^ (8 * i) < 2 ^ (8 * (i + 1)) := by
      have h255 : n % 256 ≤ 255 := by omega
      calc acc + (n % 256) * 2 ^ (8 * i) < 2 ^ (8 * i) + (n % 256) * 2 ^ (8 * i) := by omega
        _ ≤ 2 ^ (8 * i) + 255 * 2 ^ (8 * i) := by gcongr
        _ = 2 ^ (8 * i) * 256 := by ring
        _ = 2 ^ (8 * (i + 1)) := hPow.symm
    have htop2 : (n / 256 % 256 ^ k) * 2 ^ (8 * (i + 1)) < 2 ^ 31 := by
      have hle : (n / 256 % 256 ^ k) * 2 ^ (8 * (i + 1))
          ≤ (n % 256 ^ (k + 1)) * 2 ^ (8 * i) := by
        rw [hPow]
        calc (n / 256 % 256 ^ k) * (2 ^ (8 * i) * 256)
            = (256 * (n / 256 % 256 ^ k)) * 2 ^ (8 * i) := by ring
          _ ≤ (n % 256 ^ (k + 1)) * 2 ^ (8 * i) := by
              apply Nat.mul_le_mul_right
              omega
      exact Nat.lt_of_le_of_lt hle htop
    simp only [le_bytes, cbn_loop, hshift]
    rw [lor_shift_eq_add hacc, ih (n / 256) (i + 1) _ hacc2 htop2]
    rw [hmod, hPow]
    ring

/-- Decoding inverts `convert_numeric_to_bytes` below the sign-extension
threshold `2^31` of the promoted shift. -/
theorem convert_bytes_to_numeric_inverts (n : Nat) (h : n < 2 ^ 31) :
    convert_bytes_to_numeric (convert_numeric_to_bytes n) = n := by
  unfold convert_bytes_to_numeric convert_numeric_to_bytes
  have hn : n % 256 ^ calculate_minimum_byte_size_required n = n :=
    Nat.mod_eq_of_lt (lt_pow_min_byte_size n)
  rw [cbn_loop_le_bytes _ n 0 0 (by norm_num) (by simpa [hn] using h)]
  simp [hn]

/-- Decoding one encoded field record removes exactly that record from the
front of the blob, for values below the sign-extension threshold of the
length decoder. -/
theorem make_row_encode_field (v rest : List Nat) (hv : v.length < 2 ^ 31) :
    make_mysql_table_row (encode_field v ++ rest) = v :: make_mysql_table_row rest := by
  by_cases h : v.length = 0
  · have hv0 : v = [] := List.length_eq_zero.mp h
    subst hv0
    rw [show encode_field [] = [noValue] from rfl]
    rw [show ([noValue] ++ rest : List Nat) = noValue :: rest from rfl]
    rw [make_mysql_table_row]
    simp
  · have hc1 : 1 ≤ calculate_minimum_byte_size_required v.length := min_byte_size_pos _
    have hc4 : calculate_minimum_byte_size_required v.length ≤ 4 := by
      have : v.length < 256 ^ (3 + 1) := by
        have h4 : (256:Nat) ^ (3 + 1) = 4294967296 := by norm_num
        rw [h4]
        have := hv
        omega
      exact min_byte_size_le 3 _ this
    have hL : (convert_numeric_to_bytes v.length).length
        = calculate_minimum_byte_size_required v.length := by
      unfold convert_numeric_to_bytes
      exact le_bytes_length _ _
    have hhead : convert_numeric_to_a_byte (convert_numeric_to_bytes v.length).length
        = calculate_minimum_byte_size_required v.length := by
      rw [hL]
      unfold convert_numeric_to_a_byte convert_numeric_to_bytes
      have h1 : calculate_minimum_byte_size_required
          (calculate_minimum_byte_size_required v.length) = 1 := by
        rw [calculate_minimum_byte_size_required]
        simp [show calculate_minimum_byte_size_required v.length < 256 by omega]
      rw [h1]
      simp only [le_bytes, List.headD]
      omega
    have hne : calculate_minimum_byte_size_required v.length ≠ noValue := by
      unfold noValue; omega
    have henc : encode_field v ++ rest
        = calculate_minimum_byte_size_required v.length ::
            (convert_numeric_to_bytes v.length ++ (v ++ rest)) := by
      unfold encode_field
      rw [if_neg h, hhead]
      simp [List.append_assoc]
    rw [henc, make_mysql_table_row, if_neg hne]
    have htake : (convert_numeric_to_bytes v.length ++ (v ++ rest)).take
        (calculate_minimum_byte_size_required v.length)
        = convert_numeric_to_bytes v.length := List.take_left' hL
    have hdrop : (convert_numeric_to_bytes v.length ++ (v ++ rest)).drop
        (calculate_minimum_byte_size_required v.length) = v ++ rest := List.drop_left' hL
    rw [htake, hdrop, convert_bytes_to_numeric_inverts _ hv]
    rw [List.take_left, List.drop_left]

/-- Decoding the concatenated column records yields the column list, for
values below the sign-extension threshold of the length decoder. -/
theorem make_row_encode_cols (cols : List (List Nat))
    (hc : ∀ c ∈ cols, c.length < 2 ^ 31) :
    make_mysql_table_row ((cols.map encode_field).flatten) = cols := by
  induction cols with
  | nil =>
    simp only [List.map_nil, List.flatten_nil]
    rw [make_mysql_table_row]
  | cons c cs ih =>
    simp only [List.map_cons, List.flatten_cons]
    rw [make_row_encode_field c _ (hc c (by simp))]
    rw [ih (fun d hd => hc d (by simp [hd]))]

/-- Row round-trip below the sign-extension threshold: for rows whose
null-flag bytes and column values are each shorter than `2^31`, decoding
the encoded blob returns exactly the original row.  This is the domain on
which `convert_bytes_to_numeric` reassembles the length bytes correctly;
from `2^31` on, the fourth length byte is `0x80` or more and its promoted
shift sign-extends (see `C1_corrupt_length_sign_extension`). -/
theorem row_value_round_trip_small (nulls : List Nat) (cols : List (List Nat))
    (hn : nulls.length < 2 ^ 31) (hc : ∀ c ∈ cols, c.length < 2 ^ 31) :
    decode_row (encode_row nulls cols) = (nulls, cols) := by
  unfold decode_row encode_row
  rw [make_row_encode_field nulls _ hn, make_row_encode_cols cols hc]

/-! ## Checked decoding (C9)

`make_mysql_table_row` reads `byteSize` length bytes and `valueLength` value
bytes without ever checking that the blob still has that many bytes; on a
truncated blob the C++ reads past the end of the buffer (undefined
behavior).  The spec mandates that a reimplementation fail such a decode
with a `CorruptRecord` error instead. -/

/-- The spec's error taxonomy entry for a value blob that fails to decode
under the field-record framing. -/
inductive DecodeError
  | corruptRecord
deriving DecidableEq

/-- Modelled from the spec: the `CorruptRecord`-checked row decoder required
of the reimplementation ("decoding a truncated or corrupted blob ... must
instead fail with a `CorruptRecord` error").  It walks the field records
exactly as `make_mysql_table_row` does but errors whenever a record's
declared bytes exceed the remaining input; no such decoder exists in the
source, whose behavior there is undefined. -/
def make_mysql_table_row_checked : List Nat → Except DecodeError (List (List Nat))
  | [] => .ok []
  | byteSize :: rest =>
    if byteSize = noValue then
      (make_mysql_table_row_checked rest).map ([] :: ·)
    else if rest.length < byteSize then .error .corruptRecord
    else if (rest.drop byteSize).length < convert_bytes_to_numeric (rest.take byteSize) then
      .error .corruptRecord
    else
      (make_mysql_table_row_checked
          ((rest.drop byteSize).drop (convert_bytes_to_numeric (rest.take byteSize)))).map
        (((rest.drop byteSize).take (convert_bytes_to_numeric (rest.take byteSize))) :: ·)
  termination_by data => data.length
  decreasing_by
    all_goals simp only [List.length_cons, List.length_drop]; omega

/-- A blob is well-framed when it is a concatenation of complete field
records: the `noValue` sentinel, or `[byteSize] ++ L ++ V` with
`byteSize ≠ noValue`, `L` of length `byteSize` and `V` of the value length
announced by `L`. -/
inductive WellFramed : List Nat → Prop
  | nil : WellFramed []
  | sentinel {rest : List Nat} : WellFramed rest → WellFramed (noValue :: rest)
  | record {k : Nat} {L V rest : List Nat} :
      k ≠ noValue → L.length = k → V.length = convert_bytes_to_numeric L →
      WellFramed rest → WellFramed (k :: (L ++ (V ++ rest)))

theorem checked_ok_of_wellFramed {d : List Nat} (h : WellFramed d) :
    make_mysql_table_row_checked d = .ok (make_mysql_table_row d) := by
  induction h with
  | nil => rw [make_mysql_table_row_checked, make_mysql_table_row]
  | sentinel _ ih =>
    rw [make_mysql_table_row_checked, make_mysql_table_row]
    simp [ih, Except.map]
  | record hk hL hV _ ih =>
    rename_i k L V rest _
    have htake : (L ++ (V ++ rest)).take k = L := List.take_left' hL
    have hdrop : (L ++ (V ++ rest)).drop k = V ++ rest := List.drop_left' hL
    have hlen : ¬ (L ++ (V ++ rest)).length < k := by
      simp only [List.length_append]
      omega
    have hlen2 : ¬ ((L ++ (V ++ rest)).drop k).length
        < convert_bytes_to_numeric ((L ++ (V ++ rest)).take k) := by
      rw [htake, hdrop]
      simp only [List.length_append]
      omega
    rw [make_mysql_table_row_checked, make_mysql_table_row]
    rw [if_neg hk, if_neg hk, if_neg hlen, if_neg hlen2]
    rw [htake, hdrop]
    have htakeV : (V ++ rest).take (convert_bytes_to_numeric L) = V :=
      List.take_left' hV
    have hdropV : (V ++ rest).drop (convert_bytes_to_numeric L) = rest :=
      List.drop_left' hV
    rw [htakeV, hdropV, ih]
    rfl

theorem wellFramed_of_checked_ok : ∀ (d : List Nat) (fields : List (List Nat)),
    make_mysql_table_row_checked d = .ok fields → WellFramed d := by
  intro d
  induction d using make_mysql_table_row_checked.induct with
  | case1 =>
    intro fields _
    exact WellFramed.nil
  | case2 rest ih =>
    intro fields h
    rw [make_mysql_table_row_checked, if_pos rfl] at h
    cases hr : make_mysql_table_row_checked rest with
    | ok inner => exact WellFramed.sentinel (ih inner hr)
    | error e => rw [hr] at h; exact absurd h (by simp [Except.map])
  | case3 b rest hb hlen =>
    intro fields h
    rw [make_mysql_table_row_checked, if_neg hb, if_pos hlen] at h
    exact absurd h (by simp)
  | case4 b rest hb hlen hlen2 =>
    intro fields h
    rw [make_mysql_table_row_checked, if_neg hb, if_neg hlen, if_pos hlen2] at h
    exact absurd h (by simp)
  | case5 b rest hb hlen hlen2 ih =>
    intro fields h
    rw [make_mysql_table_row_checked, if_neg hb, if_neg hlen, if_neg hlen2] at h
    cases hr : make_mysql_table_row_checked
        ((rest.drop b).drop (convert_bytes_to_numeric (rest.take b))) with
    | error e => rw [hr] at h; exact absurd h (by simp [Except.map])
    | ok inner =>
      have hshape : rest = rest.take b ++ ((rest.drop b).take
            (convert_bytes_to_numeric (rest.take b)) ++
          ((rest.drop b).drop (convert_bytes_to_numeric (rest.take b)))) := by
        rw [List.take_append_drop, List.take_append_drop]
      have hwf := ih inner hr
      have hlen2d : ¬ rest.length - b < convert_bytes_to_numeric (rest.take b) := by
        simpa [List.length_drop] using hlen2
      have hrec := @WellFramed.record b (rest.take b)
        ((rest.drop b).take (convert_bytes_to_numeric (rest.take b)))
        ((rest.drop b).drop (convert_bytes_to_numeric (rest.take b)))
        hb (by simp only [List.length_take]; omega)
        (by simp only [List.length_take, List.length_drop]; omega)
        hwf
      rw [← hshape] at hrec
      exact hrec


/-- Claim C1 (code bug): the claim's round-trip is the code's evident
intent — the header documents values up to `UINT_MAX` and the decoder
asserts `valueLength <= maxValueLength` — but the source's
`convert_bytes_to_numeric` computes `(uchar)b << 8*i` in 32-bit `int`, so
for a value length of `2^31` (which fits `maxValueLength`) the encoded
length bytes `00 00 00 80` decode to `2^64 - 2^32 + 2^31` instead of
`2^31`: the shifted fourth byte sign-extends into `size_t`.  The decoder
would then read that many value bytes from a `2^31`-byte buffer (out of
bounds; the `CorruptRecord`-checked decoder reports exactly that), and its
own assert fails, so decoding does not return the original row. -/
theorem C1_corrupt_length_sign_extension :
    (2 ^ 31 : Nat) ≤ maxValueLength ∧
    convert_numeric_to_bytes (2 ^ 31) = [0x00, 0x00, 0x00, 0x80] ∧
    convert_bytes_to_numeric (convert_numeric_to_bytes (2 ^ 31))
      = 2 ^ 64 - 2 ^ 32 + 2 ^ 31 ∧
    convert_bytes_to_numeric (convert_numeric_to_bytes (2 ^ 31)) ≠ 2 ^ 31 ∧
    make_mysql_table_row_checked (encode_row [] [List.replicate (2 ^ 31) (0 : Nat)])
      = .error .corruptRecord := by
  have hcalc : calculate_minimum_byte_size_required (2 ^ 31) = 4 := by
    rw [calculate_minimum_byte_size_required,
      if_neg (by norm_num : ¬ (2 ^ 31 : Nat) < 256)]
    rw [show (2 ^ 31 : Nat) / 256 = 8388608 from by norm_num]
    rw [calculate_minimum_byte_size_required,
      if_neg (by norm_num : ¬ (8388608 : Nat) < 256)]
    rw [show (8388608 : Nat) / 256 = 32768 from by norm_num]
    rw [calculate_minimum_byte_size_required,
      if_neg (by norm_num : ¬ (32768 : Nat) < 256)]
    rw [show (32768 : Nat) / 256 = 128 from by norm_num]
    rw [calculate_minimum_byte_size_required,
      if_pos (by norm_num : (128 : Nat) < 256)]
  have hcnb : convert_numeric_to_bytes (2 ^ 31) = [0x00, 0x00, 0x00, 0x80] := by
    unfold convert_numeric_to_bytes
    rw [hcalc]
    decide
  have hcbn : convert_bytes_to_numeric [0x00, 0x00, 0x00, 0x80]
      = 2 ^ 64 - 2 ^ 32 + 2 ^ 31 := by decide
  have hb4 : convert_numeric_to_a_byte 4 = 4 := by
    unfold convert_numeric_to_a_byte convert_numeric_to_bytes
    rw [show calculate_minimum_byte_size_required 4 = 1 by
      rw [calculate_minimum_byte_size_required]; norm_num]
    decide
  have hvlen : (List.replicate (2 ^ 31) (0 : Nat)).length = 2 ^ 31 :=
    List.length_replicate _ _
  have hencf : encode_field (List.replicate (2 ^ 31) (0 : Nat))
      = 4 :: ([0x00, 0x00, 0x00, 0x80] ++ List.replicate (2 ^ 31) 0) := by
    unfold encode_field
    rw [hvlen, hcnb]
    rw [if_neg (by norm_num : ¬ (2 ^ 31 : Nat) = 0)]
    rw [show ([0x00, 0x00, 0x00, 0x80] : List Nat).length = 4 from rfl, hb4]
  have henc : encode_row [] [List.replicate (2 ^ 31) (0 : Nat)]
      = 255 :: 4 :: ([0x00, 0x00, 0x00, 0x80] ++ List.replicate (2 ^ 31) 0) := by
    unfold encode_row
    simp only [List.map_cons, List.map_nil, List.flatten_cons, List.flatten_nil,
      List.append_nil]
    rw [hencf]
    rw [show encode_field ([] : List Nat) = [noValue] from rfl]
    rfl
  have hchkinner : make_mysql_table_row_checked
      (4 :: ([0x00, 0x00, 0x00, 0x80] ++ List.replicate (2 ^ 31) (0 : Nat)))
      = .error .corruptRecord := by
    rw [make_mysql_table_row_checked]
    rw [if_neg (by norm_num [noValue])]
    have hlen4 : ¬ ([0x00, 0x00, 0x00, 0x80] ++
        List.replicate (2 ^ 31) (0 : Nat)).length < 4 := by
      rw [List.length_append, hvlen]
      norm_num
    rw [if_neg hlen4]
    have htk : ([0x00, 0x00, 0x00, 0x80] ++
        List.replicate (2 ^ 31) (0 : Nat)).take 4 = [0x00, 0x00, 0x00, 0x80] :=
      List.take_left' rfl
    have hdp : ([0x00, 0x00, 0x00, 0x80] ++
        List.replicate (2 ^ 31) (0 : Nat)).drop 4 = List.replicate (2 ^ 31) 0 :=
      List.drop_left' rfl
    rw [htk, hdp, hcbn]
    rw [if_pos (by rw [hvlen]; norm_num)]
  refine ⟨by norm_num [maxValueLength], hcnb, ?_, ?_, ?_⟩
  · rw [hcnb]; exact hcbn
  · rw [hcnb, hcbn]; norm_num
  · rw [henc, make_mysql_table_row_checked, if_pos (by norm_num [noValue])]
    rw [hchkinner]
    rfl

/-- Claim C9: corrupt-record decoding.  The `CorruptRecord`-checked decoder
mandated by the spec (modelled above, since the source's
`make_mysql_table_row` has undefined behavior there) fails with
`CorruptRecord` exactly on the blobs that are not a concatenation of
complete field records — never silently tolerating or repairing them — and
on well-framed blobs it agrees with the source's decoder. -/
theorem C9_corrupt_record_decoding (data : List Nat) :
    (make_mysql_table_row_checked data = .error .corruptRecord ↔ ¬ WellFramed data) ∧
    (∀ fields, make_mysql_table_row_checked data = .ok fields →
      fields = make_mysql_table_row data) := by
  constructor
  · constructor
    · intro herr hwf
      rw [checked_ok_of_wellFramed hwf] at herr
      exact absurd herr (by simp)
    · intro hnwf
      cases hchk : make_mysql_table_row_checked data with
      | ok fields => exact absurd (wellFramed_of_checked_ok data fields hchk) hnwf
      | error e => cases e; rfl
  · intro fields hok
    have hagree := checked_ok_of_wellFramed (wellFramed_of_checked_ok data fields hok)
    rw [hok] at hagree
    exact Except.ok.inj hagree

/-- Witness for C9: the truncated blob `[2, 0]` announces a two-byte length
field but only one byte follows; the checked decoder rejects it as corrupt. -/
theorem C9_corrupt_record_decoding_witness :
    make_mysql_table_row_checked [2, 0] = .error .corruptRecord ∧ ¬ WellFramed [2, 0] :=
  have herr : make_mysql_table_row_checked [2, 0] = .error .corruptRecord := by
    rw [make_mysql_table_row_checked]
    simp [noValue]
  ⟨herr, (C9_corrupt_record_decoding [2, 0]).1.mp herr⟩

/-! ## KeyPartCodec (`ha_lineairdb.cc`)

A key part is encoded as `[null_marker][type_tag]` followed by a
type-dependent payload-with-length layout; composite keys concatenate the
part encodings in index order. -/

/-- Enum `LineairDBFieldType` (`lineairdb_field_types.h`). -/
inductive LineairDBFieldType
  | LINEAIRDB_INT
  | LINEAIRDB_STRING
  | LINEAIRDB_DATETIME
  | LINEAIRDB_OTHER
deriving DecidableEq

/-- Constant `kKeyMarkerNotNull` (0x00). -/
def kKeyMarkerNotNull : Nat := 0x00

/-- Constant `kKeyMarkerNull` (0x01). -/
def kKeyMarkerNull : Nat := 0x01

/-- Function `ha_lineairdb::key_part_type_tag`. -/
def key_part_type_tag : LineairDBFieldType → Nat
  | .LINEAIRDB_INT => 0x10
  | .LINEAIRDB_STRING => 0x20
  | .LINEAIRDB_DATETIME => 0x30
  | .LINEAIRDB_OTHER => 0xF0

/-- Function `ha_lineairdb::append_key_part_encoding`, returned as the byte fragment
appended to `out`.  `copy_length = min(payload.size(), 0xFFFF)` truncates
oversized payloads; the two length bytes are
`(length_field >> 8) & 0xFF = copy_length / 256` and
`length_field & 0xFF = copy_length % 256`.  STRING places the payload before
the `0x00` terminator and the length bytes; the other (fixed-length) types
place the length bytes first. -/
def append_key_part_encoding (is_null : Bool) (type : LineairDBFieldType)
    (payload : List Nat) : List Nat :=
  (if is_null then kKeyMarkerNull else kKeyMarkerNotNull) ::
    key_part_type_tag type ::
      (if type = .LINEAIRDB_STRING then
        payload.take 0xFFFF ++
          [0x00, min payload.length 0xFFFF / 256, min payload.length 0xFFFF % 256]
      else
        min payload.length 0xFFFF / 256 :: min payload.length 0xFFFF % 256 ::
          payload.take 0xFFFF)

/-- Function `ha_lineairdb::build_prefix_range_end`: append a single `0xFF` byte. -/
def build_prefix_range_end (p : List Nat) : List Nat :=
  p ++ [0xFF]

/-- Big-endian byte emission loop of `encode_int_key`:
`buf[i] = (value >> ((output_len - 1 - i) * 8)) & 0xFF`. -/
def be_bytes : Nat → Nat → List Nat
  | 0, _ => []
  | len + 1, value => ((value / 2 ^ (8 * len)) % 256) :: be_bytes len value

/-- Little-endian reassembly of the input bytes in `encode_int_key`
(`data[0] | data[1] << 8 | ...`), written with the byte-0 term peeled:
the nested form equals the source's flat `|||` chain because `|||` is
associative and commutative and shifting distributes over it. -/
def le_bytes_to_uint : List Nat → Nat
  | [] => 0
  | b :: rest => b ||| (le_bytes_to_uint rest <<< 8)

/-- Function `ha_lineairdb::encode_int_key`: for source widths 1, 2, 4 and 8 the
little-endian input is reinterpreted as an unsigned integer, its sign bit is
flipped (`value ^= 0x80...` with the high bit of the width) and the result
is written big-endian; any other length yields the empty string. -/
def encode_int_key (data : List Nat) : List Nat :=
  if data.length = 1 then be_bytes 1 (le_bytes_to_uint data ^^^ 0x80)
  else if data.length = 2 then be_bytes 2 (le_bytes_to_uint data ^^^ 0x8000)
  else if data.length = 4 then be_bytes 4 (le_bytes_to_uint data ^^^ 0x80000000)
  else if data.length = 8 then be_bytes 8 (le_bytes_to_uint data ^^^ 0x8000000000000000)
  else []

/-- The little-endian two's-complement buffer of width `w` that MySQL hands
to `encode_int_key` for a signed integer column value `v`. -/
def int_to_le_bytes (w : Nat) (v : Int) : List Nat :=
  le_bytes w (v % (2 ^ (8 * w))).toNat

/-- One key part as supplied to `convert_key_to_ldbformat`: its NULL flag,
its `LineairDBFieldType`, and its already-extracted payload bytes. -/
structure KeyPart where
  is_null : Bool
  type : LineairDBFieldType
  payload : List Nat

/-- The composite-key serialization loop of `convert_key_to_ldbformat`:
concatenate the part encodings in index order (a NULL part contributes an
empty payload, as in the source). -/
def encode_key_parts (parts : List KeyPart) : List Nat :=
  (parts.map (fun p =>
    append_key_part_encoding p.is_null p.type
      (if p.is_null then [] else p.payload))).flatten

/-! ## Order preservation of the integer key encoding (C2) -/

theorem pow256_eq (w : Nat) : (256 : Nat) ^ w = 2 ^ (8 * w) := by
  rw [show (256 : Nat) = 2 ^ 8 by norm_num, ← Nat.pow_mul]

theorem le_bytes_to_uint_le_bytes (w : Nat) : ∀ n,
    le_bytes_to_uint (le_bytes w n) = n % 256 ^ w := by
  induction w with
  | zero => intro n; simp [le_bytes, le_bytes_to_uint, Nat.mod_one]
  | succ w ih =>
    intro n
    simp only [le_bytes, le_bytes_to_uint, ih (n / 256)]
    rw [lor_shift_eq_add (show n % 256 < 2 ^ 8 by omega)]
    have hmod : n % 256 ^ (w + 1) = n % 256 + 256 * (n / 256 % 256 ^ w) := by
      rw [show (256:Nat) ^ (w + 1) = 256 * 256 ^ w by rw [Nat.pow_succ]; ring, Nat.mod_mul]
    rw [hmod]
    norm_num
    ring

theorem be_bytes_mod (len : Nat) : ∀ m,
    be_bytes len (m % 2 ^ (8 * len)) = be_bytes len m := by
  induction len with
  | zero => intro m; rfl
  | succ len ih =>
    intro m
    have hsplit : (2 : Nat) ^ (8 * (len + 1)) = 2 ^ (8 * len) * 256 := by
      rw [Nat.mul_add, Nat.pow_add]
    simp only [be_bytes]
    congr 1
    · rw [hsplit, Nat.mod_mul_right_div_self]
      omega
    · rw [← ih (m % 2 ^ (8 * (len + 1))), ← ih m]
      congr 1
      rw [Nat.mod_mod_of_dvd]
      rw [hsplit]
      exact Dvd.intro 256 rfl

theorem be_bytes_lt_mono (len : Nat) : ∀ m n, m < n → n < 2 ^ (8 * len) →
    lexLt (be_bytes len m) (be_bytes len n) = true := by
  induction len with
  | zero =>
    intro m n hmn hn
    simp only [Nat.mul_zero, pow_zero] at hn
    omega
  | succ len ih =>
    intro m n hmn hn
    have hsplit : (2 : Nat) ^ (8 * (len + 1)) = 2 ^ (8 * len) * 256 := by
      rw [Nat.mul_add, Nat.pow_add]
    have hndiv : n / 2 ^ (8 * len) < 256 := by
      rw [hsplit] at hn
      exact Nat.div_lt_of_lt_mul hn
    have hmdiv : m / 2 ^ (8 * len) < 256 :=
      Nat.lt_of_le_of_lt (Nat.div_le_div_right (Nat.le_of_lt hmn)) hndiv
    simp only [be_bytes]
    rw [Nat.mod_eq_of_lt hndiv, Nat.mod_eq_of_lt hmdiv]
    by_cases hq : m / 2 ^ (8 * len) < n / 2 ^ (8 * len)
    · simp [lexLt, hq]
    · have hqe : m / 2 ^ (8 * len) = n / 2 ^ (8 * len) := by
        have := Nat.div_le_div_right (c := 2 ^ (8 * len)) (Nat.le_of_lt hmn)
        omega
      have hm' := Nat.div_add_mod m (2 ^ (8 * len))
      have hn' := Nat.div_add_mod n (2 ^ (8 * len))
      rw [hqe] at hm'
      have hlt : m % 2 ^ (8 * len) < n % 2 ^ (8 * len) := by omega
      have htail := ih (m % 2 ^ (8 * len)) (n % 2 ^ (8 * len)) hlt
        (Nat.mod_lt _ (Nat.pos_pow_of_pos _ (by omega)))
      rw [be_bytes_mod, be_bytes_mod] at htail
      simp [lexLt, hqe, htail]

/-- Reading the two's-complement buffer back and flipping the sign bit
yields the order-shifted value `v + 2^(width-1)`. -/
theorem sign_flip_eq (M : Nat) (hM : 1 ≤ M) (v : Int)
    (h1 : -(2 ^ (M - 1) : Int) ≤ v) (h2 : v < 2 ^ (M - 1)) :
    (v % (2 ^ M : Int)).toNat ^^^ 2 ^ (M - 1) = (v + 2 ^ (M - 1)).toNat := by
  have hMeq : M = (M - 1) + 1 := by omega
  have hIntPow : (2 : Int) ^ M = 2 ^ (M - 1) + 2 ^ (M - 1) := by
    conv_lhs => rw [hMeq]
    rw [pow_succ]; ring
  have hNatPow : (2 : Nat) ^ M = 2 ^ (M - 1) + 2 ^ (M - 1) := by
    conv_lhs => rw [hMeq]
    rw [pow_succ]; ring
  by_cases hv : 0 ≤ v
  · have hvlt : v < (2 : Int) ^ M := by omega
    have hmod : v % (2 ^ M : Int) = v := Int.emod_eq_of_lt hv hvlt
    rw [hmod]
    have hlt : v.toNat < 2 ^ (M - 1) := by
      have : ((2 ^ (M - 1) : Nat) : Int) = (2 : Int) ^ (M - 1) := by push_cast; rfl
      omega
    rw [xor_two_pow_of_lt hlt]
    have : ((2 ^ (M - 1) : Nat) : Int) = (2 : Int) ^ (M - 1) := by push_cast; rfl
    omega
  · have hvneg : v < 0 := by omega
    have hshift : v % (2 ^ M : Int) = v + 2 ^ M := by
      have hrw : v + 2 ^ M = v + 2 ^ M * 1 := by ring
      have h0 : (v + 2 ^ M) % (2 ^ M : Int) = v % 2 ^ M := by
        rw [hrw, Int.add_mul_emod_self_left]
      have hlow : (0 : Int) ≤ v + 2 ^ M := by omega
      have hhigh : v + 2 ^ M < 2 ^ M := by omega
      rw [← h0, Int.emod_eq_of_lt hlow hhigh]
    rw [hshift]
    have hcast : ((2 ^ (M - 1) : Nat) : Int) = (2 : Int) ^ (M - 1) := by push_cast; rfl
    have hge : 2 ^ (M - 1) ≤ (v + 2 ^ M).toNat := by omega
    have hlt : (v + 2 ^ M).toNat < 2 ^ ((M - 1) + 1) := by
      have : (2 : Nat) ^ ((M - 1) + 1) = 2 ^ (M - 1) + 2 ^ (M - 1) := by
        rw [pow_succ]; ring
      omega
    rw [xor_two_pow_of_ge hge hlt]
    omega

/-- Evaluating `encode_int_key` on a width-`w` two's-complement buffer is the
big-endian form of the sign-shifted value. -/
theorem encode_int_key_int_to_le_bytes (w : Nat) (v : Int)
    (hw : w = 1 ∨ w = 2 ∨ w = 4 ∨ w = 8)
    (h1 : -(2 ^ (8 * w - 1) : Int) ≤ v) (h2 : v < 2 ^ (8 * w - 1)) :
    encode_int_key (int_to_le_bytes w v) = be_bytes w (v + 2 ^ (8 * w - 1)).toNat := by
  have hlen : (int_to_le_bytes w v).length = w := le_bytes_length w _
  have hub : (v % (2 ^ (8 * w) : Int)).toNat < 2 ^ (8 * w) := by
    have hpos : (0 : Int) < 2 ^ (8 * w) := by positivity
    have hnn := Int.emod_nonneg v (ne_of_gt hpos)
    have hl := Int.emod_lt_of_pos v hpos
    have hcast : ((2 ^ (8 * w) : Nat) : Int) = (2 : Int) ^ (8 * w) := by push_cast; rfl
    omega
  have hlb : le_bytes_to_uint (int_to_le_bytes w v) = (v % (2 ^ (8 * w) : Int)).toNat := by
    unfold int_to_le_bytes
    rw [le_bytes_to_uint_le_bytes, pow256_eq, Nat.mod_eq_of_lt hub]
  have hflip := sign_flip_eq (8 * w) (by omega) v h1 h2
  rcases hw with hw | hw | hw | hw <;> subst hw <;>
    simp only [encode_int_key, hlen] <;> norm_num <;> rw [hlb]
  · rw [show (128 : Nat) = 2 ^ (8 * 1 - 1) by norm_num, hflip]
    norm_num
  · rw [show (32768 : Nat) = 2 ^ (8 * 2 - 1) by norm_num, hflip]
    norm_num
  · rw [show (2147483648 : Nat) = 2 ^ (8 * 4 - 1) by norm_num, hflip]
    norm_num
  · rw [show (9223372036854775808 : Nat) = 2 ^ (8 * 8 - 1) by norm_num, hflip]
    norm_num

/-- Claim C2: integer key-part order preservation.  For every pair of signed
integers `a < b` of the same source width (1, 2, 4 or 8 bytes),
`encode_int_key` of their little-endian two's-complement buffers compare in
the same order under byte-wise lexicographic comparison; and for 4-byte
inputs the payloads of `-5` and `5` are `7F FF FF FB` and `80 00 00 05`. -/
theorem C2_int_key_order_preservation :
    (∀ (w : Nat) (a b : Int),
      (w = 1 ∨ w = 2 ∨ w = 4 ∨ w = 8) →
      -(2 ^ (8 * w - 1) : Int) ≤ a → a < 2 ^ (8 * w - 1) →
      -(2 ^ (8 * w - 1) : Int) ≤ b → b < 2 ^ (8 * w - 1) →
      a < b →
      lexLt (encode_int_key (int_to_le_bytes w a))
        (encode_int_key (int_to_le_bytes w b)) = true) ∧
    encode_int_key (int_to_le_bytes 4 (-5)) = [0x7F, 0xFF, 0xFF, 0xFB] ∧
    encode_int_key (int_to_le_bytes 4 5) = [0x80, 0x00, 0x00, 0x05] := by
  refine ⟨?_, by decide, by decide⟩
  intro w a b hw ha1 ha2 hb1 hb2 hab
  rw [encode_int_key_int_to_le_bytes w a hw ha1 ha2,
    encode_int_key_int_to_le_bytes w b hw hb1 hb2]
  have hcast : ((2 ^ (8 * w) : Nat) : Int) = (2 : Int) ^ (8 * w) := by push_cast; rfl
  have hsum : (2 : Int) ^ (8 * w) = 2 ^ (8 * w - 1) + 2 ^ (8 * w - 1) := by
    have hMeq : 8 * w = (8 * w - 1) + 1 := by omega
    conv_lhs => rw [hMeq]
    rw [pow_succ]; ring
  apply be_bytes_lt_mono <;> omega

/-- Witness for C2 at width 4 with `a = -5 < b = 5`. -/
theorem C2_int_key_order_preservation_witness :
    lexLt (encode_int_key (int_to_le_bytes 4 (-5)))
      (encode_int_key (int_to_le_bytes 4 5)) = true :=
  C2_int_key_order_preservation.1 4 (-5) 5 (by norm_num) (by norm_num)
    (by norm_num) (by norm_num) (by norm_num) (by norm_num)

/-! ## String key-part ordering (C3) -/

/-- Padding both strings with the `0x00` terminator and their (differing)
length suffixes preserves a strict comparison, provided that when `s` is a
proper initial segment of `t` the first byte of `t` after `s` is nonzero
(otherwise the terminator of `s` ties with `t`'s payload byte and the length
suffixes decide the order the wrong way). -/
theorem lexLt_pad : ∀ (s t u v : List Nat), lexLt s t = true →
    (s <+: t → (t.drop s.length).head? ≠ some 0) →
    lexLt (s ++ 0 :: u) (t ++ 0 :: v) = true := by
  intro s
  induction s with
  | nil =>
    intro t u v h hp
    cases t with
    | nil => simp [lexLt] at h
    | cons c t2 =>
      have hc : c ≠ 0 := by
        have := hp (List.nil_prefix)
        simpa using this
      have hc0 : 0 < c := by omega
      simp [lexLt, hc0]
  | cons a s2 ih =>
    intro t u v h hp
    cases t with
    | nil => simp [lexLt] at h
    | cons b t2 =>
      by_cases hab : a < b
      · simp [lexLt, hab]
      · by_cases hba : b < a
        · simp [lexLt, hab, hba] at h
        · have heq : a = b := by omega
          subst heq
          simp only [lexLt, if_neg hab, if_neg hba] at h
          have hp2 : s2 <+: t2 → (t2.drop s2.length).head? ≠ some 0 := by
            intro hpre
            have := hp (by simp [hpre])
            simpa using this
          simp only [List.cons_append, lexLt, if_neg hab, if_neg hba]
          exact ih t2 u v h hp2

/-- Claim C3 (amended): the STRING key-part encoding places the payload
before the length field, as
`[null_marker][type_tag][payload][0x00 terminator][2-byte length]`; and for
strings of length at most the codec's 0xFFFF payload bound, with `s < t`
byte-wise and — when `s` is a proper initial segment of `t` — a nonzero
first byte of `t` after the shared part (in particular for "ab" and "abc"),
the encoding of `s` sorts lexicographically before the encoding of `t`.
The original claim's unrestricted ordering statement fails when `t` extends
`s` by `0x00` bytes. -/
theorem C3_string_key_order_amended (s t : List Nat)
    (hs : s.length ≤ 0xFFFF) (ht : t.length ≤ 0xFFFF)
    (hlt : lexLt s t = true)
    (hcont : s <+: t → (t.drop s.length).head? ≠ some 0) :
    append_key_part_encoding false .LINEAIRDB_STRING s =
      kKeyMarkerNotNull :: key_part_type_tag .LINEAIRDB_STRING ::
        (s ++ [0x00, s.length / 256, s.length % 256]) ∧
    lexLt (append_key_part_encoding false .LINEAIRDB_STRING s)
      (append_key_part_encoding false .LINEAIRDB_STRING t) = true := by
  have hmins : min s.length 0xFFFF = s.length := Nat.min_eq_left hs
  have hmint : min t.length 0xFFFF = t.length := Nat.min_eq_left ht
  have htks : s.take 0xFFFF = s := List.take_of_length_le hs
  have htkt : t.take 0xFFFF = t := List.take_of_length_le ht
  constructor
  · simp only [append_key_part_encoding, if_neg (Bool.false_ne_true), reduceIte,
      hmins, htks]
  · simp only [append_key_part_encoding, Bool.false_eq_true, reduceIte,
      hmins, hmint, htks, htkt]
    show lexLt
      ([kKeyMarkerNotNull, key_part_type_tag .LINEAIRDB_STRING] ++
        (s ++ 0 :: [s.length / 256, s.length % 256]))
      ([kKeyMarkerNotNull, key_part_type_tag .LINEAIRDB_STRING] ++
        (t ++ 0 :: [t.length / 256, t.length % 256])) = true
    rw [lexLt_append_same]
    exact lexLt_pad s t _ _ hlt hcont

/-- Counterexample to C3 as stated: `s = "a"` sorts before `t = "a\x00"`
byte-wise, but the encoding of `s` does not sort before the encoding of `t`
(the terminator ties with `t`'s embedded `0x00` byte and the length bytes
then order `t`'s encoding first). -/
theorem C3_string_key_order_counterexample :
    lexLt [0x61] [0x61, 0x00] = true ∧
    lexLt (append_key_part_encoding false .LINEAIRDB_STRING [0x61])
      (append_key_part_encoding false .LINEAIRDB_STRING [0x61, 0x00]) = false := by
  decide

/-- Witness for the amended C3 on the spec's own example `"ab" < "abc"`. -/
theorem C3_string_key_order_amended_witness :
    lexLt (append_key_part_encoding false .LINEAIRDB_STRING [0x61, 0x62])
      (append_key_part_encoding false .LINEAIRDB_STRING [0x61, 0x62, 0x63]) = true :=
  (C3_string_key_order_amended [0x61, 0x62] [0x61, 0x62, 0x63]
    (by decide) (by decide) (by decide) (by decide)).2

/-- Claim C8: NULL key-part ordering.  Inside a composite key, after any
common front `pre`, the NULL encoding of a part (marker `0x01`, empty
payload — exactly what `convert_key_to_ldbformat` emits for a NULL part)
sorts lexicographically after every non-NULL encoding of a part of the same
type, because the marker byte `0x00` of a non-NULL part compares below
`0x01`. -/
theorem C8_null_key_part_sorts_last (pre : List Nat) (t : LineairDBFieldType)
    (payload : List Nat) :
    lexLt (pre ++ append_key_part_encoding false t payload)
      (pre ++ append_key_part_encoding true t []) = true := by
  rw [lexLt_append_same]
  simp [append_key_part_encoding, kKeyMarkerNull, kKeyMarkerNotNull, lexLt]

/-- Claim C10: key-part leading-byte invariant.  Every key-part encoding
begins with its null-marker byte, `0x00` (`kKeyMarkerNotNull`) or `0x01`
(`kKeyMarkerNull`) — never `0xFF`; hence the byte continuation of a
composite key at any part boundary starts with a marker byte, the unstated
invariant behind appending `0xFF` as a prefix-range end. -/
theorem C10_key_part_leading_byte :
    (∀ (is_null : Bool) (t : LineairDBFieldType) (payload : List Nat),
      (append_key_part_encoding is_null t payload).head? =
        some (if is_null then kKeyMarkerNull else kKeyMarkerNotNull) ∧
      (append_key_part_encoding is_null t payload).head? ≠ some 0xFF) ∧
    (∀ (q : KeyPart) (parts : List KeyPart),
      (encode_key_parts (q :: parts)).head? = some kKeyMarkerNull ∨
      (encode_key_parts (q :: parts)).head? = some kKeyMarkerNotNull) := by
  constructor
  · intro is_null t payload
    constructor
    · rfl
    · cases is_null <;> simp [append_key_part_encoding, kKeyMarkerNull, kKeyMarkerNotNull]
  · intro q parts
    simp only [encode_key_parts, List.map_cons, List.flatten_cons,
      append_key_part_encoding, List.cons_append]
    cases hq : q.is_null
    · right; rfl
    · left; rfl

/-! ## Prefix-range end (C4) -/

/-- A key whose encoding does not extend the byte string `p` lies outside
the half-open interval from `p` to `p ++ [0xFF]`. -/
theorem outside_of_not_extending : ∀ (p k : List Nat), ¬ (p <+: k) →
    lexLt k p = true ∨ lexLt k (p ++ [0xFF]) = false := by
  intro p
  induction p with
  | nil => intro k hk; exact absurd (List.nil_prefix) hk
  | cons a p2 ih =>
    intro k hk
    cases k with
    | nil => left; rfl
    | cons b k2 =>
      by_cases hba : b < a
      · left; simp [lexLt, hba]
      · by_cases hab : a < b
        · right; simp [lexLt, hba, hab, Nat.lt_asymm hab]
        · have heq : b = a := by omega
          subst heq
          have hk2 : ¬ (p2 <+: k2) := by
            intro hpre
            exact hk (by simp [hpre])
          rcases ih k2 hk2 with h | h
          · left
            simpa [lexLt, hba] using h
          · right
            simpa [lexLt, hba] using h

/-- The concatenation of key-part encodings is empty or starts with a
null-marker byte. -/
theorem encode_key_parts_head (parts : List KeyPart) :
    encode_key_parts parts = [] ∨
    (encode_key_parts parts).head? = some kKeyMarkerNull ∨
    (encode_key_parts parts).head? = some kKeyMarkerNotNull := by
  cases parts with
  | nil => left; rfl
  | cons q qs =>
    right
    simp only [encode_key_parts, List.map_cons, List.flatten_cons,
      append_key_part_encoding, List.cons_append]
    cases q.is_null
    · right; rfl
    · left; rfl

/-- Claim C4 (amended): prefix-range-end correctness.  Let `p` be the
encoding of the leading parts of a composite key.  Every key encoding that
continues `p` with further part encodings lies inside the half-open range
from `p` to `build_prefix_range_end p` (so the range end sorts after every
such key), and every key encoding that does not extend the byte string `p`
lies outside that range.  The original claim — the range end sorts before
any key whose leading key-part values differ from the prefix tuple — is
false: a key whose first part value differs can still byte-extend `p` and
then lies inside the range (see the counterexample below). -/
theorem C4_prefix_range_end (pparts restparts : List KeyPart) (k : List Nat)
    (hk : ¬ (encode_key_parts pparts <+: k)) :
    (lexLt (encode_key_parts pparts ++ encode_key_parts restparts)
        (encode_key_parts pparts) = false ∧
      lexLt (encode_key_parts pparts ++ encode_key_parts restparts)
        (build_prefix_range_end (encode_key_parts pparts)) = true) ∧
    (lexLt k (encode_key_parts pparts) = true ∨
      lexLt k (build_prefix_range_end (encode_key_parts pparts)) = false) := by
  constructor
  · constructor
    · exact lexLt_append_self_right _ _
    · unfold build_prefix_range_end
      rw [lexLt_append_same]
      rcases encode_key_parts_head restparts with h | h | h
      · rw [h]; rfl
      · cases hrest : encode_key_parts restparts with
        | nil => rw [hrest] at h; simp at h
        | cons c cs =>
          rw [hrest] at h
          simp only [List.head?_cons, Option.some.injEq] at h
          subst h
          simp [lexLt, kKeyMarkerNull]
      · cases hrest : encode_key_parts restparts with
        | nil => rw [hrest] at h; simp at h
        | cons c cs =>
          rw [hrest] at h
          simp only [List.head?_cons, Option.some.injEq] at h
          subst h
          simp [lexLt, kKeyMarkerNotNull]
  · exact outside_of_not_extending _ k hk

/-- Witness for C4: `p` encodes a single non-NULL INT part, the
continuation adds one more INT part, and `k = [0x05]` does not share the
prefix. -/
theorem C4_prefix_range_end_witness :
    (lexLt (encode_key_parts [⟨false, .LINEAIRDB_INT, [0x80]⟩] ++
        encode_key_parts [⟨false, .LINEAIRDB_INT, [0x81]⟩])
        (encode_key_parts [⟨false, .LINEAIRDB_INT, [0x80]⟩]) = false ∧
      lexLt (encode_key_parts [⟨false, .LINEAIRDB_INT, [0x80]⟩] ++
        encode_key_parts [⟨false, .LINEAIRDB_INT, [0x81]⟩])
        (build_prefix_range_end (encode_key_parts [⟨false, .LINEAIRDB_INT, [0x80]⟩])) = true) ∧
    (lexLt [0x05] (encode_key_parts [⟨false, .LINEAIRDB_INT, [0x80]⟩]) = true ∨
      lexLt [0x05]
        (build_prefix_range_end (encode_key_parts [⟨false, .LINEAIRDB_INT, [0x80]⟩])) = false) :=
  C4_prefix_range_end [⟨false, .LINEAIRDB_INT, [0x80]⟩]
    [⟨false, .LINEAIRDB_INT, [0x81]⟩] [0x05] (by decide)

/-- Counterexample to the original C4 claim: take `p` to encode the single
STRING part `"a"` and the key to encode the two-part tuple
`("a\x00\x00\x01", 0x42)`.  The key's first part value differs from `p`'s
(`"a\x00\x00\x01" ≠ "a"`), so the key does not share the prefix tuple, yet
its encoding byte-extends `p` — the STRING layout's terminator-and-length
tail is not prefix-free — and the key therefore lies strictly inside the
half-open range from `p` to `build_prefix_range_end p` instead of sorting
at or after the range end. -/
theorem C4_prefix_range_end_counterexample :
    ([0x61, 0x00, 0x00, 0x01] : List Nat) ≠ [0x61] ∧
    lexLt (encode_key_parts [⟨false, .LINEAIRDB_STRING, [0x61, 0x00, 0x00, 0x01]⟩,
        ⟨false, .LINEAIRDB_INT, [0x42]⟩])
      (encode_key_parts [⟨false, .LINEAIRDB_STRING, [0x61]⟩]) = false ∧
    lexLt (encode_key_parts [⟨false, .LINEAIRDB_STRING, [0x61, 0x00, 0x00, 0x01]⟩,
        ⟨false, .LINEAIRDB_INT, [0x42]⟩])
      (build_prefix_range_end
        (encode_key_parts [⟨false, .LINEAIRDB_STRING, [0x61]⟩])) = true := by
  refine ⟨by decide, by decide, by decide⟩

/-! ## RangeQueryPlanner: `ha_lineairdb::index_read_primary_key` (C5)

The planning section of `index_read_primary_key` (the prefix/range path)
computes an effective start key, an end key, and — for exclusive upper
bounds — `end_range_exclusive_key_`, which `index_read_map` clears before
every read.  The end key supplied by MySQL through `end_range` enters
already serialized by `convert_key_to_ldbformat`. -/

/-- The `ha_rkey_function` search modes the planner distinguishes. -/
inductive HaRkeyFunction
  | HA_READ_KEY_EXACT
  | HA_READ_KEY_OR_NEXT
  | HA_READ_AFTER_KEY
  | HA_READ_BEFORE_KEY
  | HA_READ_PREFIX_LAST
deriving DecidableEq

/-- The data the planner reads from MySQL's `end_range`: the end key
serialized by `convert_key_to_ldbformat`, its comparison flag, and
`count_used_key_parts` of its key-part map. -/
structure EndRange where
  key : List Nat
  flag : HaRkeyFunction
  used_key_parts : Nat
deriving DecidableEq

/-- The boundary triple handed to the scan: `effective_start_key`,
`serialized_end_key` and `end_range_exclusive_key_` (the empty string
meaning "none", as in the source). -/
structure RangePlan where
  start : List Nat
  end_key : List Nat
  exclusive : List Nat
deriving DecidableEq

/-- The final adjustment of `index_read_primary_key`: "Only extend if not
exclusive end" — when the end key is shorter than the start key and no
exclusive end is recorded, the end key is prefix-extended. -/
def finalize_primary_range (start end_key exclusive : List Nat) : RangePlan :=
  if end_key.length < start.length ∧ exclusive = [] then
    ⟨start, build_prefix_range_end end_key, exclusive⟩
  else ⟨start, end_key, exclusive⟩

/-- The range-planning section of `ha_lineairdb::index_read_primary_key`
(the non-exact-match path), as a function of the search mode, the
serialized search key, the optional serialized end range, the index's
`user_defined_key_parts` and the prefix-search flag. -/
def index_read_primary_key_plan (find_flag : HaRkeyFunction)
    (serialized_key : List Nat) (end_range : Option EndRange)
    (user_defined_key_parts : Nat) (is_prefix_search : Bool) : RangePlan :=
  if find_flag = .HA_READ_AFTER_KEY then
    match end_range with
    | some er =>
      if er.flag = .HA_READ_BEFORE_KEY then
        finalize_primary_range (serialized_key ++ [0x00]) er.key er.key
      else if er.used_key_parts < user_defined_key_parts then
        finalize_primary_range (serialized_key ++ [0x00]) (build_prefix_range_end er.key) []
      else
        finalize_primary_range (serialized_key ++ [0x00]) er.key []
    | none =>
      finalize_primary_range (serialized_key ++ [0x00])
        (List.replicate ((serialized_key ++ [0x00]).length + 1) 0xFF) []
  else if find_flag = .HA_READ_KEY_OR_NEXT then
    match end_range with
    | some er =>
      if er.flag = .HA_READ_BEFORE_KEY then
        finalize_primary_range serialized_key er.key er.key
      else if er.used_key_parts < user_defined_key_parts then
        finalize_primary_range serialized_key (build_prefix_range_end er.key) []
      else
        finalize_primary_range serialized_key er.key []
    | none =>
      finalize_primary_range serialized_key
        (List.replicate (serialized_key.length + 1) 0xFF) []
  else
    match end_range with
    | some er =>
      if er.flag = .HA_READ_BEFORE_KEY then
        finalize_primary_range serialized_key er.key er.key
      else if (is_prefix_search ∧ er.key = serialized_key) ∨
          er.used_key_parts < user_defined_key_parts then
        finalize_primary_range serialized_key (build_prefix_range_end er.key) []
      else
        finalize_primary_range serialized_key er.key []
    | none =>
      finalize_primary_range serialized_key (build_prefix_range_end serialized_key) []

/-! ## ScanCursor: `LineairDBTransaction::get_matching_keys_in_range` (C5, C6) -/

/-- Outcome of `get_matching_keys_in_range`: whether the transaction was
aborted (`tx->Abort()` after a conflicted scan) and the returned key list. -/
structure TxScanResult where
  aborted : Bool
  keys : List (List Nat)
deriving DecidableEq

/-- Function `LineairDBTransaction::get_matching_keys_in_range`, with the store's
scan outcome supplied by the (external) storage engine: `visited` is the
sequence of keys the store invoked the callback on, and `conflict` says the
scan returned `nullopt` (phantom detection).  The callback skips a key equal
to `exclusive_end_key` when that is nonempty; on conflict the transaction is
aborted and the accumulated keys are discarded. -/
def get_matching_keys_in_range (visited : List (List Nat)) (conflict : Bool)
    (exclusive_end_key : List Nat) : TxScanResult :=
  let keyList := visited.filter
    (fun key => !(!exclusive_end_key.isEmpty && key == exclusive_end_key))
  if conflict then ⟨true, []⟩ else ⟨false, keyList⟩

/-- The handler error codes `index_read_primary_key` and `rnd_next` surface
after a range scan or a batch fetch. -/
inductive HandlerResult
  | OK
  | HA_ERR_KEY_NOT_FOUND
  | HA_ERR_LOCK_DEADLOCK
  | HA_ERR_END_OF_FILE
deriving DecidableEq

/-- The checks following the scan in `index_read_primary_key`: an aborted
transaction surfaces `HA_ERR_LOCK_DEADLOCK` (a retryable conflict); an
empty result surfaces `HA_ERR_KEY_NOT_FOUND`; otherwise the row is fetched. -/
def index_read_range_outcome (r : TxScanResult) : HandlerResult :=
  if r.aborted then .HA_ERR_LOCK_DEADLOCK
  else if r.keys.isEmpty then .HA_ERR_KEY_NOT_FOUND
  else .OK

/-- A scan with a nonempty exclusive end key never yields that key. -/
theorem exclusive_end_not_mem (visited : List (List Nat)) (ek : List Nat)
    (hek : ek ≠ []) :
    ek ∉ (get_matching_keys_in_range visited false ek).keys := by
  intro hmem
  simp only [get_matching_keys_in_range, if_neg (by simp : ¬ (false = true))] at hmem
  have := (List.mem_filter.mp hmem).2
  simp [List.isEmpty_iff, hek] at this

/-- Claim C5: exclusive-bound correctness.  Whenever a range search is
planned with an exclusive end comparison (`HA_READ_BEFORE_KEY` on the end
range), the planner records the raw, unextended end-key encoding both as
the scan end and as `end_range_exclusive_key_` — no `0xFF` prefix extension
is applied to it in any search-mode branch — and a scan over the resulting
boundary never yields an entry whose key equals that exclusive end. -/
theorem C5_exclusive_bound (find_flag : HaRkeyFunction)
    (serialized_key ek : List Nat) (used total : Nat) (is_prefix_search : Bool)
    (visited : List (List Nat)) (hek : ek ≠ []) :
    (index_read_primary_key_plan find_flag serialized_key
        (some ⟨ek, .HA_READ_BEFORE_KEY, used⟩) total is_prefix_search).exclusive = ek ∧
    (index_read_primary_key_plan find_flag serialized_key
        (some ⟨ek, .HA_READ_BEFORE_KEY, used⟩) total is_prefix_search).end_key = ek ∧
    ek ∉ (get_matching_keys_in_range visited false
        (index_read_primary_key_plan find_flag serialized_key
          (some ⟨ek, .HA_READ_BEFORE_KEY, used⟩) total is_prefix_search).exclusive).keys := by
  have hplan : index_read_primary_key_plan find_flag serialized_key
      (some ⟨ek, .HA_READ_BEFORE_KEY, used⟩) total is_prefix_search =
      ⟨(if find_flag = .HA_READ_AFTER_KEY then serialized_key ++ [0x00]
        else serialized_key), ek, ek⟩ := by
    cases find_flag <;>
      simp [index_read_primary_key_plan, finalize_primary_range, hek]
  rw [hplan]
  exact ⟨rfl, rfl, exclusive_end_not_mem visited ek hek⟩

/-- Witness for C5: an `HA_READ_KEY_OR_NEXT` search over a two-part index
with a one-part exclusive end key; the end key is recorded raw and the scan
result omits it. -/
theorem C5_exclusive_bound_witness :
    (index_read_primary_key_plan .HA_READ_KEY_OR_NEXT [0x00, 0x10, 0x00, 0x01, 0x05]
        (some ⟨[0x00, 0x10, 0x00, 0x01, 0x09], .HA_READ_BEFORE_KEY, 1⟩) 2 true).exclusive
      = [0x00, 0x10, 0x00, 0x01, 0x09] ∧
    (index_read_primary_key_plan .HA_READ_KEY_OR_NEXT [0x00, 0x10, 0x00, 0x01, 0x05]
        (some ⟨[0x00, 0x10, 0x00, 0x01, 0x09], .HA_READ_BEFORE_KEY, 1⟩) 2 true).end_key
      = [0x00, 0x10, 0x00, 0x01, 0x09] ∧
    [0x00, 0x10, 0x00, 0x01, 0x09] ∉ (get_matching_keys_in_range
        [[0x00, 0x10, 0x00, 0x01, 0x05], [0x00, 0x10, 0x00, 0x01, 0x09]] false
        (index_read_primary_key_plan .HA_READ_KEY_OR_NEXT [0x00, 0x10, 0x00, 0x01, 0x05]
          (some ⟨[0x00, 0x10, 0x00, 0x01, 0x09], .HA_READ_BEFORE_KEY, 1⟩) 2 true).exclusive).keys :=
  C5_exclusive_bound .HA_READ_KEY_OR_NEXT [0x00, 0x10, 0x00, 0x01, 0x05]
    [0x00, 0x10, 0x00, 0x01, 0x09] 1 2 true
    [[0x00, 0x10, 0x00, 0x01, 0x05], [0x00, 0x10, 0x00, 0x01, 0x09]] (by decide)

/-! ## Batched full-table scan: `fetch_next_batch` / `rnd_next` (C7) -/

/-- Constant `SCAN_BATCH_SIZE` (`ha_lineairdb.hh`). -/
def SCAN_BATCH_SIZE : Nat := 100

/-- One entry of the store, as the scan callback sees it: a key and
`(value.first, value.second)`, `none` standing for a null data pointer and
a list for a buffer of that length. -/
structure StoreEntry where
  key : List Nat
  value : Option (List Nat)
deriving DecidableEq

/-- The tombstone test of the scan callbacks:
`value.first == nullptr || value.second == 0`. -/
def is_tombstone : Option (List Nat) → Bool
  | none => true
  | some v => v.isEmpty

/-- The entries a store `Scan(begin, nullopt, ...)` call visits, in order:
the store holds its entries sorted by key and scans from `begin`
inclusively with no upper bound. -/
def scan_visited (store : List StoreEntry) (first : List Nat) : List StoreEntry :=
  store.filter (fun e => !lexLt e.key first)

/-- The scan callback of `fetch_next_batch`, folded over the visited
entries with the remaining capacity `cap`: while `skip_first` holds, an
entry whose key equals the previous batch's last key is passed over (it was
already returned); tombstones are skipped; otherwise the key is accumulated,
and the scan stops once `SCAN_BATCH_SIZE` keys have been accumulated
(`cap ≤ 1`: this key fills the batch). -/
def scan_collect (first : List Nat) : List StoreEntry → Bool → Nat → List (List Nat)
  | [], _, _ => []
  | e :: rest, skip_first, cap =>
    if skip_first ∧ e.key = first then scan_collect first rest skip_first cap
    else if is_tombstone e.value then scan_collect first rest false cap
    else if cap ≤ 1 then [e.key]
    else e.key :: scan_collect first rest false (cap - 1)

/-- Function `ha_lineairdb::fetch_next_batch`: scan from `last_batch_key_` (skipping
it when nonempty), accumulate at most `SCAN_BATCH_SIZE` live keys; an empty
batch reports exhaustion (`none`), otherwise the batch and its last key
(the new `last_batch_key_`) are returned. -/
def fetch_next_batch (store : List StoreEntry) (last_batch_key : List Nat) :
    Option (List (List Nat) × List Nat) :=
  let batch := scan_collect last_batch_key (scan_visited store last_batch_key)
    (!last_batch_key.isEmpty) SCAN_BATCH_SIZE
  if batch.isEmpty then none
  else some (batch, batch.getLast?.getD [])

/-- Function `ha_lineairdb::fetch_next_batch` with the transaction state made
explicit: `aborted_before` is `tx->is_aborted()` on entry, `visited` holds
the entries the store's `Scan` invoked the callback on (a prefix of the
range when the scan hit a conflict), and `aborted_after_scan` is
`tx->is_aborted()` re-checked after the scan.  The conflict signal of
`tx->Scan` — its `nullopt` return — is the ` _scan_conflict` argument,
which the function discards: the pass-through `LineairDBTransaction::Scan`
never calls `Abort`, and no branch of `fetch_next_batch` consults the
return value.  The result pairs the transaction's abort flag with the
batch and its last key (`none` models `return false`). -/
def fetch_next_batch_tx (visited : List StoreEntry) (last_batch_key : List Nat)
    (aborted_before : Bool) ( _scan_conflict : Bool) (aborted_after_scan : Bool) :
    Bool × Option (List (List Nat) × List Nat) :=
  if aborted_before then (true, none)
  else
    let batch := scan_collect last_batch_key visited
      (!last_batch_key.isEmpty) SCAN_BATCH_SIZE
    if aborted_after_scan then (true, none)
    else if batch.isEmpty then (false, none)
    else (false, some (batch, batch.getLast?.getD []))

/-- The error `rnd_next` surfaces when `fetch_next_batch` returns `false`:
`HA_ERR_LOCK_DEADLOCK` when the transaction is in the aborted state,
otherwise the scan is marked exhausted and `HA_ERR_END_OF_FILE` is
returned. -/
def rnd_next_fetch_fail_outcome (aborted : Bool) : HandlerResult :=
  if aborted then .HA_ERR_LOCK_DEADLOCK else .HA_ERR_END_OF_FILE

/-- Claim C6 (amended): conflict propagation.  On the index-read path, a
range scan in which the store reports a conflict (`Scan` returned
`nullopt`) aborts the transaction and returns zero accumulated keys to its
caller — regardless of the entries visited and accumulated before the
conflict — and the enclosing `index_read_primary_key` surfaces the
retryable-conflict error `HA_ERR_LOCK_DEADLOCK` rather than partial
results.  On the batched full-scan path, `fetch_next_batch` discards the
return value of `tx->Scan`, so a conflict propagates only when the
underlying LineairDB transaction is itself in the aborted state when
re-checked after the scan: then the fetch fails with no batch and
`rnd_next` surfaces `HA_ERR_LOCK_DEADLOCK`.  The original claim — every
conflicted scan aborts the transaction and surfaces the error — is false
on the batched path when that re-check does not fire (see the
counterexample below). -/
theorem C6_conflict_propagation_amended (visited : List (List Nat))
    (exclusive : List Nat) (entries : List StoreEntry) (last : List Nat)
    (conflict : Bool) :
    (get_matching_keys_in_range visited true exclusive = ⟨true, []⟩ ∧
      index_read_range_outcome (get_matching_keys_in_range visited true exclusive)
        = .HA_ERR_LOCK_DEADLOCK) ∧
    (fetch_next_batch_tx entries last false conflict true = (true, none) ∧
      rnd_next_fetch_fail_outcome true = .HA_ERR_LOCK_DEADLOCK) := by
  refine ⟨⟨?_, ?_⟩, ?_, ?_⟩ <;>
    simp [get_matching_keys_in_range, index_read_range_outcome,
      fetch_next_batch_tx, rnd_next_fetch_fail_outcome]

/-- Counterexample to the original C6 claim: on the batched full-scan path
the store's `Scan` reports a conflict (the fourth argument `true` is its
discarded `nullopt` return), but `LineairDBTransaction::Scan` never calls
`Abort`, so with the underlying transaction not in the aborted state the
fetch succeeds with the partially accumulated batch `[[1]]` and the
transaction is left unaborted — the conflict is silently swallowed.  A
conflicted scan that accumulated nothing is likewise reported as ordinary
exhaustion (`HA_ERR_END_OF_FILE`), not as `HA_ERR_LOCK_DEADLOCK`. -/
theorem C6_conflict_propagation_counterexample :
    fetch_next_batch_tx [⟨[1], some [2]⟩] [] false true false
      = (false, some ([[1]], [1])) ∧
    fetch_next_batch_tx [] [] false true false = (false, none) ∧
    rnd_next_fetch_fail_outcome false = .HA_ERR_END_OF_FILE := by
  refine ⟨by decide, by decide, by decide⟩

/-- Witness for C6: a conflicted index scan that had already visited two
keys returns no keys, an aborted transaction and a lock-deadlock error;
a batch fetch that finds the transaction aborted after its scan fails
with no batch and `rnd_next` surfaces the same error. -/
theorem C6_conflict_propagation_amended_witness :
    (get_matching_keys_in_range [[1], [2]] true [] = ⟨true, []⟩ ∧
      index_read_range_outcome (get_matching_keys_in_range [[1], [2]] true [])
        = .HA_ERR_LOCK_DEADLOCK) ∧
    (fetch_next_batch_tx [⟨[3], some [4]⟩] [] false true true = (true, none) ∧
      rnd_next_fetch_fail_outcome true = .HA_ERR_LOCK_DEADLOCK) :=
  C6_conflict_propagation_amended [[1], [2]] [] [⟨[3], some [4]⟩] [] true

/-- The batch sequence `rnd_next` drives: starting from no watermark, fetch
batches until one comes back empty (`scan_exhausted_`).  `fuel` bounds the
number of batches; every successful batch is nonempty, so any fuel past the
number of live rows is enough. -/
def full_scan_batches (store : List StoreEntry) : Nat → List Nat → List (List (List Nat))
  | 0, _ => []
  | fuel + 1, last =>
    match fetch_next_batch store last with
    | none => []
    | some (batch, newlast) => batch :: full_scan_batches store fuel newlast

theorem scan_collect_length (first : List Nat) : ∀ (entries : List StoreEntry)
    (skip : Bool) (cap : Nat), 1 ≤ cap →
    (scan_collect first entries skip cap).length ≤ cap := by
  intro entries
  induction entries with
  | nil => intro skip cap h; simp [scan_collect]
  | cons e rest ih =>
    intro skip cap hcap
    rw [scan_collect]
    by_cases h1 : skip ∧ e.key = first
    · rw [if_pos h1]; exact ih skip cap hcap
    · rw [if_neg h1]
      by_cases h2 : is_tombstone e.value
      · rw [if_pos h2]; exact ih false cap hcap
      · rw [if_neg h2]
        by_cases h3 : cap ≤ 1
        · rw [if_pos h3]; simpa using hcap
        · rw [if_neg h3]
          have := ih false (cap - 1) (by omega)
          simp only [List.length_cons]
          omega

theorem scan_collect_mem (first : List Nat) : ∀ (entries : List StoreEntry)
    (skip : Bool) (cap : Nat) (k : List Nat),
    k ∈ scan_collect first entries skip cap →
    ∃ e ∈ entries, e.key = k ∧ is_tombstone e.value = false := by
  intro entries
  induction entries with
  | nil => intro skip cap k h; simp [scan_collect] at h
  | cons e rest ih =>
    intro skip cap k h
    rw [scan_collect] at h
    by_cases h1 : skip ∧ e.key = first
    · rw [if_pos h1] at h
      obtain ⟨e2, he2, hk⟩ := ih skip cap k h
      exact ⟨e2, by simp [he2], hk⟩
    · rw [if_neg h1] at h
      by_cases h2 : is_tombstone e.value
      · rw [if_pos h2] at h
        obtain ⟨e2, he2, hk⟩ := ih false cap k h
        exact ⟨e2, by simp [he2], hk⟩
      · rw [if_neg h2] at h
        by_cases h3 : cap ≤ 1
        · rw [if_pos h3] at h
          simp only [List.mem_singleton] at h
          exact ⟨e, by simp, by rw [h], by simpa using h2⟩
        · rw [if_neg h3] at h
          rcases List.mem_cons.mp h with h | h
          · exact ⟨e, by simp, by rw [h], by simpa using h2⟩
          · obtain ⟨e2, he2, hk⟩ := ih false (cap - 1) k h
            exact ⟨e2, by simp [he2], hk⟩

theorem scan_collect_sublist (first : List Nat) : ∀ (entries : List StoreEntry)
    (skip : Bool) (cap : Nat),
    List.Sublist (scan_collect first entries skip cap) (entries.map (fun e => e.key)) := by
  intro entries
  induction entries with
  | nil => intro skip cap; simp [scan_collect]
  | cons e rest ih =>
    intro skip cap
    rw [scan_collect]
    by_cases h1 : skip ∧ e.key = first
    · rw [if_pos h1]
      exact (ih skip cap).cons _
    · rw [if_neg h1]
      by_cases h2 : is_tombstone e.value
      · rw [if_pos h2]
        exact (ih false cap).cons _
      · rw [if_neg h2]
        by_cases h3 : cap ≤ 1
        · rw [if_pos h3, List.map_cons]
          exact (List.nil_sublist _).cons₂ _
        · rw [if_neg h3]
          exact (ih false (cap - 1)).cons₂ _

theorem scan_collect_gt (first : List Nat) : ∀ (entries : List StoreEntry) (cap : Nat),
    List.Pairwise (fun a b => lexLt a.key b.key = true) entries →
    (∀ e ∈ entries, lexLt e.key first = false) →
    ∀ k ∈ scan_collect first entries true cap, lexLt first k = true := by
  intro entries
  induction entries with
  | nil => intro cap _ _ k h; simp [scan_collect] at h
  | cons e rest ih =>
    intro cap hsort hge k hk
    have hhead := (List.pairwise_cons.mp hsort).1
    rw [scan_collect] at hk
    by_cases hke : e.key = first
    · rw [if_pos ⟨rfl, hke⟩] at hk
      obtain ⟨e2, he2, hkey, _⟩ := scan_collect_mem first rest true cap k hk
      have h2 := hhead e2 he2
      rw [hke] at h2
      rw [← hkey]
      exact h2
    · rw [if_neg (by simp [hke])] at hk
      have hkey_gt : lexLt first e.key = true := by
        by_cases hf : lexLt first e.key = true
        · exact hf
        · have heq := eq_of_not_lexLt (hge e (by simp)) (by simpa using hf)
          exact absurd heq hke
      by_cases h2 : is_tombstone e.value
      · rw [if_pos h2] at hk
        obtain ⟨e2, he2, hkey, _⟩ := scan_collect_mem first rest false cap k hk
        rw [← hkey]
        exact lexLt_trans hkey_gt (hhead e2 he2)
      · rw [if_neg h2] at hk
        by_cases h3 : cap ≤ 1
        · rw [if_pos h3] at hk
          simp only [List.mem_singleton] at hk
          rw [hk]
          exact hkey_gt
        · rw [if_neg h3] at hk
          rcases List.mem_cons.mp hk with h | h
          · rw [h]
            exact hkey_gt
          · obtain ⟨e2, he2, hkey, _⟩ := scan_collect_mem first rest false (cap - 1) k h
            rw [← hkey]
            exact lexLt_trans hkey_gt (hhead e2 he2)

theorem getLastD_mem : ∀ (l : List (List Nat)), l ≠ [] → l.getLast?.getD [] ∈ l := by
  intro l
  induction l with
  | nil => intro h; exact absurd rfl h
  | cons x t ih =>
    intro _
    cases t with
    | nil => simp
    | cons y t2 =>
      rw [List.getLast?_cons_cons]
      exact List.mem_cons_of_mem x (ih (by simp))

theorem pairwise_le_getLast : ∀ (l : List (List Nat)),
    List.Pairwise (fun a b => lexLt a b = true) l →
    ∀ k ∈ l, k = l.getLast?.getD [] ∨ lexLt k (l.getLast?.getD []) = true := by
  intro l
  induction l with
  | nil => intro _ k h; simp at h
  | cons x t ih =>
    intro hsort k hk
    cases t with
    | nil =>
      simp only [List.mem_singleton] at hk
      left
      simp [hk]
    | cons y t2 =>
      rw [List.getLast?_cons_cons]
      rcases List.mem_cons.mp hk with h | h
      · right
        have hlast_mem := getLastD_mem (y :: t2) (by simp)
        have := (List.pairwise_cons.mp hsort).1 _ hlast_mem
        rw [h]
        exact this
      · exact ih (List.pairwise_cons.mp hsort).2 k h

theorem full_scan_sorted (store : List StoreEntry)
    (hsort : List.Pairwise (fun a b => lexLt a.key b.key = true) store)
    (hne : ∀ e ∈ store, e.key ≠ []) :
    ∀ (fuel : Nat) (last : List Nat),
      List.Pairwise (fun a b => lexLt a b = true)
        (full_scan_batches store fuel last).flatten ∧
      (last ≠ [] → ∀ k ∈ (full_scan_batches store fuel last).flatten,
        lexLt last k = true) := by
  intro fuel
  induction fuel with
  | zero => intro last; simp [full_scan_batches]
  | succ fuel ih =>
    intro last
    rw [full_scan_batches]
    cases hfb : fetch_next_batch store last with
    | none => simp
    | some pr =>
      obtain ⟨batch, newlast⟩ := pr
      simp only [fetch_next_batch] at hfb
      by_cases hb : (scan_collect last (scan_visited store last)
          (!last.isEmpty) SCAN_BATCH_SIZE).isEmpty
      · rw [if_pos hb] at hfb
        exact absurd hfb (by simp)
      · rw [if_neg hb] at hfb
        have hbatch : scan_collect last (scan_visited store last)
            (!last.isEmpty) SCAN_BATCH_SIZE = batch := by
          have := (Option.some.inj hfb)
          exact congrArg Prod.fst this
        have hnew : newlast = batch.getLast?.getD [] := by
          have := (Option.some.inj hfb)
          have h2 := congrArg Prod.snd this
          simp at h2
          rw [← h2, hbatch]
        have hbne : batch ≠ [] := by
          rw [← hbatch]
          simpa using hb
        have hVsort : List.Pairwise (fun a b => lexLt a.key b.key = true)
            (scan_visited store last) := List.Pairwise.filter _ hsort
        have hVge : ∀ e ∈ scan_visited store last, lexLt e.key last = false := by
          intro e he
          have := (List.mem_filter.mp he).2
          simpa using this
        have hmapsort : List.Pairwise (fun a b => lexLt a b = true)
            ((scan_visited store last).map (fun e => e.key)) :=
          (List.pairwise_map).mpr hVsort
        have hbatch_sorted : List.Pairwise (fun a b => lexLt a b = true) batch := by
          rw [← hbatch]
          exact List.Pairwise.sublist (scan_collect_sublist _ _ _ _) hmapsort
        have hbatch_mem : ∀ k ∈ batch, ∃ e ∈ scan_visited store last,
            e.key = k ∧ is_tombstone e.value = false := by
          intro k hk
          rw [← hbatch] at hk
          exact scan_collect_mem _ _ _ _ k hk
        have hnewlast_mem : newlast ∈ batch := by
          rw [hnew]
          exact getLastD_mem batch hbne
        have hnewlast_ne : newlast ≠ [] := by
          obtain ⟨e, he, hkey, _⟩ := hbatch_mem newlast hnewlast_mem
          rw [← hkey]
          exact hne e (List.mem_of_mem_filter he)
        obtain ⟨hflat_sorted, hflat_gt⟩ := ih newlast
        have hbatch_le : ∀ a ∈ batch, a = newlast ∨ lexLt a newlast = true := by
          intro a ha
          rw [hnew]
          exact pairwise_le_getLast batch hbatch_sorted a ha
        have hbatch_gt : last ≠ [] → ∀ k ∈ batch, lexLt last k = true := by
          intro hlast k hk
          have hskip : (!last.isEmpty) = true := by
            simp [List.isEmpty_iff, hlast]
          rw [← hbatch, hskip] at hk
          exact scan_collect_gt last _ _ hVsort hVge k hk
        constructor
        · simp only [List.flatten_cons]
          rw [List.pairwise_append]
          refine ⟨hbatch_sorted, hflat_sorted, ?_⟩
          intro a ha b hb
          have hb2 := hflat_gt hnewlast_ne b hb
          rcases hbatch_le a ha with h | h
          · rw [h]; exact hb2
          · exact lexLt_trans h hb2
        · intro hlast k hk
          simp only [List.flatten_cons, List.mem_append] at hk
          rcases hk with hk | hk
          · exact hbatch_gt hlast k hk
          · have h1 := hbatch_gt hlast newlast hnewlast_mem
            exact lexLt_trans h1 (hflat_gt hnewlast_ne k hk)

/-- A sorted store of 260 rows with keys `[i/100, i%100]` for `i < 260`, of
which the 10 rows with `i % 26 = 0` are tombstoned (250 live rows). -/
def demo_store : List StoreEntry :=
  (List.range 260).map
    (fun i => ⟨[i / 100, i % 100], if i % 26 = 0 then none else some [0x01]⟩)

/-- Claim C7: batched full-scan continuation.  A full-table scan fetches at
most `SCAN_BATCH_SIZE` (100) keys per batch; accumulated keys always come
from live (non-tombstoned) store entries; a batch returning zero new keys
ends the batch sequence; for a sorted store with nonempty keys the
concatenation of all batches is strictly increasing — hence no key is ever
returned twice across batch boundaries — and a scan over 250 live rows and
10 tombstoned rows yields exactly 250 keys across 3 batches. -/
theorem C7_batched_full_scan :
    (∀ (store : List StoreEntry) (last : List Nat) (batch : List (List Nat))
        (newlast : List Nat),
      fetch_next_batch store last = some (batch, newlast) →
      batch.length ≤ SCAN_BATCH_SIZE ∧
      ∀ k ∈ batch, ∃ e ∈ store, e.key = k ∧ is_tombstone e.value = false) ∧
    (∀ (store : List StoreEntry) (fuel : Nat) (last : List Nat),
      fetch_next_batch store last = none →
      full_scan_batches store (fuel + 1) last = []) ∧
    (∀ (store : List StoreEntry),
      List.Pairwise (fun a b => lexLt a.key b.key = true) store →
      (∀ e ∈ store, e.key ≠ []) →
      ∀ fuel : Nat,
        List.Pairwise (fun a b => lexLt a b = true)
          (full_scan_batches store fuel []).flatten ∧
        ((full_scan_batches store fuel []).flatten).Nodup) ∧
    ((full_scan_batches demo_store 10 []).length = 3 ∧
      ((full_scan_batches demo_store 10 []).flatten).length = 250 ∧
      ∀ b ∈ full_scan_batches demo_store 10 [], b.length ≤ SCAN_BATCH_SIZE) := by
  refine ⟨?_, ?_, ?_, by decide, by decide, by decide⟩
  · intro store last batch newlast hfb
    simp only [fetch_next_batch] at hfb
    by_cases hb : (scan_collect last (scan_visited store last)
        (!last.isEmpty) SCAN_BATCH_SIZE).isEmpty
    · rw [if_pos hb] at hfb
      exact absurd hfb (by simp)
    · rw [if_neg hb] at hfb
      have hbatch : scan_collect last (scan_visited store last)
          (!last.isEmpty) SCAN_BATCH_SIZE = batch :=
        congrArg Prod.fst (Option.some.inj hfb)
      constructor
      · rw [← hbatch]
        exact scan_collect_length last _ _ _ (by norm_num [SCAN_BATCH_SIZE])
      · intro k hk
        rw [← hbatch] at hk
        obtain ⟨e, he, hkey, htomb⟩ := scan_collect_mem _ _ _ _ k hk
        exact ⟨e, List.mem_of_mem_filter he, hkey, htomb⟩
  · intro store fuel last hfb
    rw [full_scan_batches, hfb]
  · intro store hsort hne fuel
    have h := (full_scan_sorted store hsort hne fuel []).1
    refine ⟨h, ?_⟩
    exact h.imp (fun hab => by
      intro heq
      subst heq
      simp [lexLt_irrefl] at hab)
/-- Witness for C7 on a three-row store (keys 1, 2, 3, the middle one a
tombstone): the flattened scan output is strictly increasing. -/
theorem C7_batched_full_scan_witness :
    List.Pairwise (fun a b => lexLt a b = true)
      ((full_scan_batches [⟨[1], some [7]⟩, ⟨[2], none⟩, ⟨[3], some [9]⟩] 5 []).flatten) :=
  (C7_batched_full_scan.2.2.1 [⟨[1], some [7]⟩, ⟨[2], none⟩, ⟨[3], some [9]⟩]
    (by decide) (by decide) 5).1

/-- Witness for C8: a non-NULL INT part sorts before the NULL INT part. -/
theorem C8_null_key_part_sorts_last_witness :
    lexLt ([] ++ append_key_part_encoding false .LINEAIRDB_INT [0x42])
      ([] ++ append_key_part_encoding true .LINEAIRDB_INT []) = true :=
  C8_null_key_part_sorts_last [] .LINEAIRDB_INT [0x42]

/-- Witness for C10: a non-NULL STRING part encoding starts with the
not-null marker, which is not 0xFF. -/
theorem C10_key_part_leading_byte_witness :
    (append_key_part_encoding false .LINEAIRDB_STRING [0x61]).head? =
      some (if false then kKeyMarkerNull else kKeyMarkerNotNull) ∧
    (append_key_part_encoding false .LINEAIRDB_STRING [0x61]).head? ≠ some 0xFF :=
  C10_key_part_leading_byte.1 false .LINEAIRDB_STRING [0x61]
